import Mathlib

/-!
Verification of `scripts/convert_dicom.py` (xray-screws).

The Python program walks a directory tree, decodes DICOM files, linearly
rescales their pixel arrays to 8-bit range, and writes sequentially numbered
JPEGs into per-patient folders using a thread pool.  This file gives a shallow
embedding of its data model and operations and proves the frozen claims about
them.
-/

namespace ConvertDicom

/-! ### Filesystem model and `find_dicom_files`

A directory's contents are a list of entries; an entry is a regular file or a
subdirectory with its own contents.  `find_dicom_files` is called on a
directory (represented here by its list of entries) and returns the paths of
the files it collects, each path being the list of names from just below the
root down to the file. -/

/-- A filesystem entry: a regular file or a directory with children. -/
inductive FS : Type where
  | file (name : String) : FS
  | dir (name : String) (children : List FS) : FS

/-- `true` on regular files (the `f.is_file()` test of the source). -/
def FS.isFile : FS → Bool
  | .file _ => true
  | .dir _ _ => false

/-- Embedding of `find_dicom_files`: at depth 0 collect the regular files of
the current directory; otherwise recurse into each subdirectory with depth
lowered by one, ignoring non-directory entries.  Returned paths are name lists
relative to the root. -/
def find_dicom_files : List FS → Nat → List (List String)
  | cs, 0 => cs.filterMap fun c =>
      match c with
      | .file n => some [n]
      | .dir _ _ => none
  | [], _ + 1 => []
  | .file _ :: rest, d + 1 => find_dicom_files rest (d + 1)
  | .dir n cs :: rest, d + 1 =>
      (find_dicom_files cs d).map (n :: ·) ++ find_dicom_files rest (d + 1)
termination_by cs _ => sizeOf cs

/-- Specification-side predicate, following the spec's words: the name list
`p` resolves, from the directory contents `cs`, through subdirectories to a
regular file. -/
def resolvesToFile : List FS → List String → Bool
  | _, [] => false
  | cs, [n] => cs.any fun c =>
      match c with
      | .file m => m == n
      | .dir _ _ => false
  | cs, n :: q => cs.any fun c =>
      match c with
      | .file _ => false
      | .dir m cs' => m == n && resolvesToFile cs' q
termination_by _ p => p.length

/-- Size of a directory listing, counting every node of the tree. -/
def fsSizeL : List FS → Nat
  | [] => 1
  | .file _ :: rest => 1 + fsSizeL rest
  | .dir _ cs :: rest => 1 + fsSizeL cs + fsSizeL rest
termination_by cs => sizeOf cs

/-- Fuel-bounded variant of `find_dicom_files`: every recursive call consumes
one unit of fuel, and exhausted fuel yields `none`.  It makes the recursion
depth of the traversal explicit. -/
def findFuel : Nat → List FS → Nat → Option (List (List String))
  | 0, _, _ => none
  | _ + 1, cs, 0 => some (cs.filterMap fun c =>
      match c with
      | .file n => some [n]
      | .dir _ _ => none)
  | _ + 1, [], _ + 1 => some []
  | fuel + 1, .file _ :: rest, d + 1 => findFuel fuel rest (d + 1)
  | fuel + 1, .dir n cs :: rest, d + 1 =>
      match findFuel fuel cs d, findFuel fuel rest (d + 1) with
      | some a, some b => some (a.map (n :: ·) ++ b)
      | _, _ => none

theorem find_zero (cs : List FS) :
    find_dicom_files cs 0 = cs.filterMap fun c =>
      match c with
      | .file n => some [n]
      | .dir _ _ => none := by
  rw [find_dicom_files]

theorem find_nil_succ (d : Nat) : find_dicom_files [] (d + 1) = [] := by
  rw [find_dicom_files]

theorem find_file_succ (n : String) (rest : List FS) (d : Nat) :
    find_dicom_files (.file n :: rest) (d + 1) = find_dicom_files rest (d + 1) := by
  rw [find_dicom_files]

theorem find_dir_succ (n : String) (cs rest : List FS) (d : Nat) :
    find_dicom_files (.dir n cs :: rest) (d + 1) =
      (find_dicom_files cs d).map (n :: ·) ++ find_dicom_files rest (d + 1) := by
  rw [find_dicom_files]

theorem mem_find_zero {cs : List FS} {p : List String} :
    p ∈ find_dicom_files cs 0 ↔ ∃ n, FS.file n ∈ cs ∧ p = [n] := by
  rw [find_zero, List.mem_filterMap]
  constructor
  · rintro ⟨c, hc, hsome⟩
    cases c with
    | file n => exact ⟨n, hc, by cases hsome; rfl⟩
    | dir _ _ => simp at hsome
  · rintro ⟨n, hn, rfl⟩
    exact ⟨.file n, hn, rfl⟩

theorem mem_find_succ {cs : List FS} {d : Nat} {p : List String} :
    p ∈ find_dicom_files cs (d + 1) ↔
      ∃ n cs', FS.dir n cs' ∈ cs ∧ ∃ q, q ∈ find_dicom_files cs' d ∧ p = n :: q := by
  induction cs with
  | nil => simp [find_nil_succ]
  | cons c rest ih =>
    cases c with
    | file m =>
      rw [find_file_succ, ih]
      constructor
      · rintro ⟨n, cs', h, hq⟩
        exact ⟨n, cs', List.mem_cons_of_mem _ h, hq⟩
      · rintro ⟨n, cs', h, hq⟩
        rcases List.mem_cons.mp h with h' | h'
        · exact absurd h' (by simp)
        · exact ⟨n, cs', h', hq⟩
    | dir m cs0 =>
      rw [find_dir_succ]
      rw [List.mem_append, List.mem_map, ih]
      constructor
      · rintro (⟨q, hq, rfl⟩ | ⟨n, cs', h, q, hq, rfl⟩)
        · exact ⟨m, cs0, List.mem_cons_self _ _, q, hq, rfl⟩
        · exact ⟨n, cs', List.mem_cons_of_mem _ h, q, hq, rfl⟩
      · rintro ⟨n, cs', h, q, hq, rfl⟩
        rcases List.mem_cons.mp h with h' | h'
        · cases h'
          exact Or.inl ⟨q, hq, rfl⟩
        · exact Or.inr ⟨n, cs', h', q, hq, rfl⟩

theorem resolves_single {cs : List FS} {n : String} :
    resolvesToFile cs [n] = true ↔ FS.file n ∈ cs := by
  rw [resolvesToFile]
  rw [List.any_eq_true]
  constructor
  · rintro ⟨c, hc, hp⟩
    cases c with
    | file m =>
      have : m = n := by simpa using hp
      subst this; exact hc
    | dir _ _ => simp at hp
  · intro h
    exact ⟨.file n, h, by simp⟩

theorem resolves_cons2 {cs : List FS} {n b : String} {q : List String} :
    resolvesToFile cs (n :: b :: q) = true ↔
      ∃ cs', FS.dir n cs' ∈ cs ∧ resolvesToFile cs' (b :: q) = true := by
  rw [resolvesToFile]
  rw [List.any_eq_true]
  constructor
  · rintro ⟨c, hc, hp⟩
    cases c with
    | file _ => simp at hp
    | dir m cs' =>
      simp only [Bool.and_eq_true, beq_iff_eq] at hp
      rcases hp with ⟨rfl, hres⟩
      exact ⟨cs', hc, hres⟩
  · rintro ⟨cs', hc, hres⟩
    exact ⟨.dir n cs', hc, by simp [hres]⟩
  simp

/-- C3: the File Discoverer returns exactly the regular files precisely `d`
directory levels below the root: a path is returned iff it has `d + 1`
components (d directories plus the filename) and resolves through the tree to
a regular file.  In particular no shallower or deeper file is returned,
non-directory entries at intermediate depths are ignored, and shallow subtrees
contribute nothing. -/
theorem find_dicom_files_exact (cs : List FS) (d : Nat) (p : List String) :
    p ∈ find_dicom_files cs d ↔ p.length = d + 1 ∧ resolvesToFile cs p = true := by
  induction d generalizing cs p with
  | zero =>
    rw [mem_find_zero]
    constructor
    · rintro ⟨n, hn, rfl⟩
      exact ⟨rfl, resolves_single.mpr hn⟩
    · rintro ⟨hl, hr⟩
      match p, hl with
      | [n], _ => exact ⟨n, resolves_single.mp hr, rfl⟩
  | succ d ih =>
    rw [mem_find_succ]
    constructor
    · rintro ⟨n, cs', hmem, q, hq, rfl⟩
      rcases (ih cs' q).mp hq with ⟨hlen, hres⟩
      refine ⟨by simp [hlen], ?_⟩
      match q, hlen, hres with
      | b :: q', _, hres => exact resolves_cons2.mpr ⟨cs', hmem, hres⟩
    · rintro ⟨hl, hr⟩
      match p, hl with
      | n :: b :: q, hl =>
        rcases resolves_cons2.mp hr with ⟨cs', hmem, hres⟩
        refine ⟨n, cs', hmem, b :: q, (ih cs' (b :: q)).mpr ⟨?_, hres⟩, rfl⟩
        simpa using hl

theorem fsSizeL_nil : fsSizeL [] = 1 := by rw [fsSizeL]

theorem fsSizeL_file (n : String) (rest : List FS) :
    fsSizeL (.file n :: rest) = 1 + fsSizeL rest := by rw [fsSizeL]

theorem fsSizeL_dir (n : String) (cs rest : List FS) :
    fsSizeL (.dir n cs :: rest) = 1 + fsSizeL cs + fsSizeL rest := by rw [fsSizeL]

theorem fsSizeL_pos (cs : List FS) : 1 ≤ fsSizeL cs := by
  cases cs with
  | nil => rw [fsSizeL_nil]
  | cons c rest =>
    cases c with
    | file n => rw [fsSizeL_file]; omega
    | dir n cs' => rw [fsSizeL_dir]; omega

/-- C10: `find_dicom_files` terminates on every finite directory tree and
every depth: the fuel-instrumented traversal `findFuel`, which spends one unit
of fuel per recursive call, already succeeds (returns `some`, never running
out of fuel) whenever the fuel is at least the finite size of the tree, and
its result is the total function `find_dicom_files`. -/
theorem find_dicom_files_terminates (fuel : Nat) (cs : List FS) (d : Nat)
    (h : fsSizeL cs ≤ fuel) : findFuel fuel cs d = some (find_dicom_files cs d) := by
  induction fuel generalizing cs d with
  | zero => exact absurd (le_trans (fsSizeL_pos cs) h) (by omega)
  | succ fuel ih =>
    match cs, d with
    | cs, 0 => rw [find_zero]; rw [findFuel]
    | [], d + 1 => rw [find_nil_succ]; rw [findFuel]
    | .file m :: rest, d + 1 =>
      rw [find_file_succ]
      rw [fsSizeL_file] at h
      exact ih rest (d + 1) (by omega)
    | .dir m cs0 :: rest, d + 1 =>
      rw [find_dir_succ]
      rw [fsSizeL_dir] at h
      have h0 : fsSizeL cs0 ≤ fuel := by
        have := fsSizeL_pos rest; omega
      have h1 : fsSizeL rest ≤ fuel := by
        have := fsSizeL_pos cs0; omega
      show (match findFuel fuel cs0 d, findFuel fuel rest (d + 1) with
        | some a, some b => some (a.map (m :: ·) ++ b)
        | _, _ => none) = _
      rw [ih cs0 d h0, ih rest (d + 1) h1]

/-- C10 witness: a concrete tree within concrete fuel. -/
theorem find_dicom_files_terminates_witness :
    fsSizeL [FS.dir "a" [FS.file "f"]] ≤ 4 ∧
      findFuel 4 [FS.dir "a" [FS.file "f"]] 1 =
        some (find_dicom_files [FS.dir "a" [FS.file "f"]] 1) := by
  have hs : fsSizeL [FS.dir "a" [FS.file "f"]] ≤ 4 := by
    rw [fsSizeL_dir, fsSizeL_file, fsSizeL_nil]
  exact ⟨hs, find_dicom_files_terminates 4 [FS.dir "a" [FS.file "f"]] 1 hs⟩

/-! ### Pixel rescaling

`convert_dicom_to_jpeg` normalizes the decoded pixel array with
`((pixel_array - pixel_array.min()) / (pixel_array.max() - pixel_array.min())) * 255`
followed by `astype(np.uint8)`.  DICOM pixel samples are integers; the NumPy
division is exact rational division here (modelled over `ℚ`), and the cast to
`uint8` truncates toward zero, modelled by `truncQ`.  A nonempty pixel array
is modelled as a head element plus the list of remaining elements. -/

/-- `pixel_array.min()`: minimum of a nonempty array given as head and tail. -/
def pyMin (x : ℤ) (xs : List ℤ) : ℤ := xs.foldl min x

/-- `pixel_array.max()`: maximum of a nonempty array given as head and tail. -/
def pyMax (x : ℤ) (xs : List ℤ) : ℤ := xs.foldl max x

/-- Truncation toward zero, the rounding `astype(np.uint8)` applies to an
in-range floating value. -/
def truncQ (q : ℚ) : ℤ := if 0 ≤ q then ⌊q⌋ else ⌈q⌉

/-- The rescaling expression `((p - m) / (M - m)) * 255` over exact rationals. -/
def rescaleVal (m M p : ℤ) : ℚ := (((p : ℚ) - (m : ℚ)) / ((M : ℚ) - (m : ℚ))) * 255

/-- One rescaled pixel: the rescaling expression, truncated to an integer by
the `uint8` cast. -/
def rescaled (m M p : ℤ) : ℤ := truncQ (rescaleVal m M p)

/-- NaN-tracking variant of the rescaling.  When `M = m` the NumPy expression
divides by zero: true division of the integer array by zero yields `NaN`
(`0/0`, raising only a `RuntimeWarning`), and `astype(np.uint8)` applied to
`NaN` is undefined behavior (platform-dependent).  `none` models the absence
of a defined numeric result in that case. -/
def rescaleChecked (m M p : ℤ) : Option ℤ :=
  if M = m then none else some (rescaled m M p)

theorem truncQ_mono {p q : ℚ} (h : p ≤ q) : truncQ p ≤ truncQ q := by
  unfold truncQ
  by_cases hp : 0 ≤ p
  · rw [if_pos hp, if_pos (le_trans hp h)]
    exact Int.floor_le_floor h
  · rw [if_neg hp]
    by_cases hq : 0 ≤ q
    · rw [if_pos hq]
      calc ⌈p⌉ ≤ 0 := Int.ceil_le.mpr (by exact_mod_cast le_of_not_le hp)
        _ ≤ ⌊q⌋ := Int.le_floor.mpr (by exact_mod_cast hq)
    · rw [if_neg hq]
      exact Int.ceil_le_ceil h

theorem rescaled_mono {m M : ℤ} (h : m < M) : Monotone (rescaled m M) := by
  intro p q hpq
  apply truncQ_mono
  unfold rescaleVal
  have hMm : (0 : ℚ) < (M : ℚ) - (m : ℚ) := by
    rw [sub_pos]; exact_mod_cast h
  have hpq' : (p : ℚ) - (m : ℚ) ≤ (q : ℚ) - (m : ℚ) := by
    have hq : (p : ℚ) ≤ (q : ℚ) := by exact_mod_cast hpq
    linarith
  have h1 : ((p : ℚ) - m) / ((M : ℚ) - m) ≤ ((q : ℚ) - m) / ((M : ℚ) - m) :=
    (div_le_div_iff_of_pos_right hMm).mpr hpq'
  exact mul_le_mul_of_nonneg_right h1 (by norm_num)

theorem rescaled_at_min (m M : ℤ) : rescaled m M m = 0 := by
  unfold rescaled rescaleVal truncQ
  simp

theorem rescaled_at_max {m M : ℤ} (h : m < M) : rescaled m M M = 255 := by
  unfold rescaled rescaleVal truncQ
  have hne : (M : ℚ) - (m : ℚ) ≠ 0 := by
    rw [sub_ne_zero]
    exact_mod_cast (ne_of_gt h)
  rw [div_self hne, one_mul]
  norm_num

theorem foldl_min_map (f : ℤ → ℤ) (hf : Monotone f) (x : ℤ) (xs : List ℤ) :
    (xs.map f).foldl min (f x) = f (xs.foldl min x) := by
  induction xs generalizing x with
  | nil => rfl
  | cons a t ih =>
    simp only [List.map_cons, List.foldl_cons]
    rw [← hf.map_min, ih]

theorem foldl_max_map (f : ℤ → ℤ) (hf : Monotone f) (x : ℤ) (xs : List ℤ) :
    (xs.map f).foldl max (f x) = f (xs.foldl max x) := by
  induction xs generalizing x with
  | nil => rfl
  | cons a t ih =>
    simp only [List.map_cons, List.foldl_cons]
    rw [← hf.map_max, ih]

/-- C1: for a decoded pixel array (head `x`, tail `xs`) whose minimum is
strictly below its maximum, the rescaled array has minimum exactly 0 and
maximum exactly 255, and the rescaling is monotonic: `p ≤ q` implies the
rescaled value of `p` is at most the rescaled value of `q`. -/
theorem rescale_normalizes (x : ℤ) (xs : List ℤ)
    (h : pyMin x xs < pyMax x xs) :
    pyMin (rescaled (pyMin x xs) (pyMax x xs) x)
        (xs.map (rescaled (pyMin x xs) (pyMax x xs))) = 0 ∧
      pyMax (rescaled (pyMin x xs) (pyMax x xs) x)
        (xs.map (rescaled (pyMin x xs) (pyMax x xs))) = 255 ∧
      ∀ p q : ℤ, p ≤ q →
        rescaled (pyMin x xs) (pyMax x xs) p ≤ rescaled (pyMin x xs) (pyMax x xs) q := by
  have hmono := rescaled_mono h
  refine ⟨?_, ?_, fun p q hpq => hmono hpq⟩
  · show (xs.map _).foldl min _ = 0
    rw [foldl_min_map _ hmono x xs]
    exact rescaled_at_min _ _
  · show (xs.map _).foldl max _ = 255
    rw [foldl_max_map _ hmono x xs]
    exact rescaled_at_max h

/-- C1 witness: a concrete two-pixel array spanning 0..10. -/
theorem rescale_normalizes_witness :
    pyMin 0 [10] < pyMax 0 [10] ∧
      (pyMin (rescaled (pyMin 0 [10]) (pyMax 0 [10]) 0)
          ([(10 : ℤ)].map (rescaled (pyMin 0 [10]) (pyMax 0 [10]))) = 0 ∧
        pyMax (rescaled (pyMin 0 [10]) (pyMax 0 [10]) 0)
          ([(10 : ℤ)].map (rescaled (pyMin 0 [10]) (pyMax 0 [10]))) = 255 ∧
        ∀ p q : ℤ, p ≤ q →
          rescaled (pyMin 0 [10]) (pyMax 0 [10]) p ≤
            rescaled (pyMin 0 [10]) (pyMax 0 [10]) q) :=
  ⟨by decide, rescale_normalizes 0 [10] (by decide)⟩

theorem pyMin_const (x : ℤ) (xs : List ℤ) (h : ∀ y ∈ xs, y = x) :
    pyMin x xs = x := by
  unfold pyMin
  induction xs with
  | nil => rfl
  | cons a t ih =>
    have ha : a = x := h a (List.mem_cons_self _ _)
    subst ha
    rw [List.foldl_cons, min_self]
    exact ih fun y hy => h y (List.mem_cons_of_mem _ hy)

theorem pyMax_const (x : ℤ) (xs : List ℤ) (h : ∀ y ∈ xs, y = x) :
    pyMax x xs = x := by
  unfold pyMax
  induction xs with
  | nil => rfl
  | cons a t ih =>
    have ha : a = x := h a (List.mem_cons_self _ _)
    subst ha
    rw [List.foldl_cons, max_self]
    exact ih fun y hy => h y (List.mem_cons_of_mem _ hy)

/-- C2: on a constant pixel array the rescaling denominator
`pixel_array.max() - pixel_array.min()` is zero, and no pixel obtains a
defined rescaled value: the NaN-tracking rescaling returns `none` everywhere.
(The float division raises no exception, but the `NaN` it produces has no
defined `uint8` value — the code provides no fallback.) -/
theorem rescale_constant_undefined (x : ℤ) (xs : List ℤ)
    (h : ∀ y ∈ xs, y = x) :
    pyMax x xs - pyMin x xs = 0 ∧
      ∀ p ∈ x :: xs, rescaleChecked (pyMin x xs) (pyMax x xs) p = none := by
  rw [pyMin_const x xs h, pyMax_const x xs h]
  exact ⟨by ring, fun p _ => by rw [rescaleChecked, if_pos rfl]⟩

/-- C2 witness: a concrete constant array. -/
theorem rescale_constant_undefined_witness :
    (∀ y ∈ [(5 : ℤ), 5], y = 5) ∧
      (pyMax 5 [(5 : ℤ), 5] - pyMin 5 [(5 : ℤ), 5] = 0 ∧
        ∀ p ∈ (5 : ℤ) :: [(5 : ℤ), 5],
          rescaleChecked (pyMin 5 [(5 : ℤ), 5]) (pyMax 5 [(5 : ℤ), 5]) p = none) :=
  ⟨by decide, rescale_constant_undefined 5 [5, 5] (by decide)⟩

/-! ### Output filename sequencing

`convert_dicom_to_jpeg` computes the output name as
`f"{len(existing_files):02d}.jpg"` where `existing_files` are the `*.jpg`
files already in the patient folder.  `%02d` prints the decimal digits of the
number, left-padded with `0` to a minimum width of two. -/

/-- Decimal digits of `n`, most significant first, as `%d` prints them. -/
def decDigitsBE (n : Nat) : List Nat :=
  if n = 0 then [0] else (Nat.digits 10 n).reverse

/-- Digit string of `%02d`: zero-padded to a minimum width of two. -/
def pad2 (n : Nat) : List Nat :=
  if n < 10 then 0 :: decDigitsBE n else decDigitsBE n

/-- The filename `f"{n:02d}.jpg"`. -/
def seqFilename (n : Nat) : String :=
  String.mk ((pad2 n).map Nat.digitChar ++ ".jpg".data)

/-- The name chosen for the next conversion, from the folder's current `*.jpg`
listing: `f"{len(existing_files):02d}.jpg"`. -/
def nextFilename (existing : List String) : String := seqFilename existing.length

/-- Serial conversion of files into an initially absent patient folder: each
conversion lists the `.jpg` files already written and appends the file it
writes (every written file matches `*.jpg`). -/
def serialConvert : Nat → List String
  | 0 => []
  | n + 1 => serialConvert n ++ [nextFilename (serialConvert n)]

theorem decDigitsBE_inj {a b : Nat} (h : decDigitsBE a = decDigitsBE b) : a = b := by
  unfold decDigitsBE at h
  by_cases ha : a = 0 <;> by_cases hb : b = 0
  · rw [ha, hb]
  · rw [if_pos ha, if_neg hb] at h
    have h2 : Nat.digits 10 b = [0] := by
      have := congrArg List.reverse h
      simpa using this.symm
    have : b = 0 := by
      rw [← Nat.ofDigits_digits 10 b, h2]
      simp [Nat.ofDigits]
    exact absurd this hb
  · rw [if_neg ha, if_pos hb] at h
    have h2 : Nat.digits 10 a = [0] := by
      have := congrArg List.reverse h
      simpa using this
    have : a = 0 := by
      rw [← Nat.ofDigits_digits 10 a, h2]
      simp [Nat.ofDigits]
    exact absurd this ha
  · rw [if_neg ha, if_neg hb] at h
    have h2 : Nat.digits 10 a = Nat.digits 10 b := by
      have := congrArg List.reverse h
      simpa using this
    rw [← Nat.ofDigits_digits 10 a, ← Nat.ofDigits_digits 10 b, h2]

theorem decDigitsBE_ne_cons_zero {b : Nat} (hb : 10 ≤ b) (l : List Nat) :
    decDigitsBE b ≠ 0 :: l := by
  intro h
  have hb0 : b ≠ 0 := by omega
  rw [decDigitsBE, if_neg hb0] at h
  have h2 : Nat.digits 10 b = l.reverse ++ [0] := by
    have := congrArg List.reverse h
    simpa using this
  have hne : Nat.digits 10 b ≠ [] := Nat.digits_ne_nil_iff_ne_zero.mpr hb0
  apply Nat.getLast_digit_ne_zero 10 hb0
  have h4 : ∀ (L : List Nat) (hL : L ≠ []), L = l.reverse ++ [0] → L.getLast hL = 0 := by
    rintro L hL rfl
    exact List.getLast_append_singleton _
  exact h4 _ hne h2

theorem pad2_inj {a b : Nat} (h : pad2 a = pad2 b) : a = b := by
  unfold pad2 at h
  by_cases ha : a < 10 <;> by_cases hb : b < 10
  · rw [if_pos ha, if_pos hb] at h
    injection h with _ h'
    exact decDigitsBE_inj h'
  · rw [if_pos ha, if_neg hb] at h
    exact absurd h.symm (decDigitsBE_ne_cons_zero (by omega) _)
  · rw [if_neg ha, if_pos hb] at h
    exact absurd h (decDigitsBE_ne_cons_zero (by omega) _)
  · rw [if_neg ha, if_neg hb] at h
    exact decDigitsBE_inj h

theorem digitChar_inj {a b : Nat} (ha : a < 10) (hb : b < 10)
    (h : Nat.digitChar a = Nat.digitChar b) : a = b := by
  interval_cases a <;> interval_cases b <;>
    first
    | rfl
    | exact absurd h (by decide)

theorem pad2_lt_ten (n : Nat) : ∀ x ∈ pad2 n, x < 10 := by
  have hdec : ∀ x ∈ decDigitsBE n, x < 10 := by
    intro x hx
    rw [decDigitsBE] at hx
    by_cases hn : n = 0
    · rw [if_pos hn] at hx
      simp at hx
      omega
    · rw [if_neg hn] at hx
      exact Nat.digits_lt_base (by norm_num) (List.mem_reverse.mp hx)
  intro x hx
  rw [pad2] at hx
  by_cases hn : n < 10
  · rw [if_pos hn] at hx
    rcases List.mem_cons.mp hx with rfl | hx'
    · omega
    · exact hdec x hx'
  · rw [if_neg hn] at hx
    exact hdec x hx

theorem map_digitChar_inj : ∀ (l₁ l₂ : List Nat), (∀ x ∈ l₁, x < 10) →
    (∀ x ∈ l₂, x < 10) → l₁.map Nat.digitChar = l₂.map Nat.digitChar → l₁ = l₂ := by
  intro l₁
  induction l₁ with
  | nil =>
    intro l₂ _ _ h
    cases l₂ with
    | nil => rfl
    | cons b t => simp at h
  | cons a t ih =>
    intro l₂ h₁ h₂ h
    cases l₂ with
    | nil => simp at h
    | cons b t' =>
      simp only [List.map_cons, List.cons.injEq] at h
      have hab : a = b :=
        digitChar_inj (h₁ a (List.mem_cons_self _ _)) (h₂ b (List.mem_cons_self _ _)) h.1
      have ht : t = t' :=
        ih t' (fun x hx => h₁ x (List.mem_cons_of_mem _ hx))
          (fun x hx => h₂ x (List.mem_cons_of_mem _ hx)) h.2
      rw [hab, ht]

theorem seqFilename_inj : Function.Injective seqFilename := by
  intro a b h
  unfold seqFilename at h
  injection h with hd
  have h2 := List.append_cancel_right hd
  exact pad2_inj (map_digitChar_inj _ _ (pad2_lt_ten a) (pad2_lt_ten b) h2)

theorem serialConvert_eq (N : Nat) :
    serialConvert N = (List.range N).map seqFilename := by
  induction N with
  | zero => rfl
  | succ n ih =>
    show serialConvert n ++ [nextFilename (serialConvert n)] = _
    rw [List.range_succ, List.map_append, ih, nextFilename]
    simp

/-- C4: converting `N` files serially into an initially absent patient folder
writes exactly the filenames `f"{0:02d}.jpg"`, …, `f"{N-1:02d}.jpg"` in that
order, with no gaps and no duplicates; and each conversion's sequence number
is the count of `.jpg` files present in the folder at that moment. -/
theorem serial_filenames (N : Nat) :
    serialConvert N = (List.range N).map seqFilename ∧
      (serialConvert N).Nodup ∧
      ∀ k, k < N →
        nextFilename (serialConvert k) = seqFilename (serialConvert k).length ∧
          (serialConvert k).length = k := by
  refine ⟨serialConvert_eq N, ?_, ?_⟩
  · rw [serialConvert_eq N]
    exact (List.nodup_range N).map seqFilename_inj
  · intro k _
    refine ⟨rfl, ?_⟩
    rw [serialConvert_eq k]
    simp

/-- C4 witness: three files into a fresh folder. -/
theorem serial_filenames_witness :
    serialConvert 3 = (List.range 3).map seqFilename ∧
      (serialConvert 3).Nodup ∧
      (1 < 3 ∧
        nextFilename (serialConvert 1) = seqFilename (serialConvert 1).length ∧
          (serialConvert 1).length = 1) :=
  ⟨(serial_filenames 3).1, (serial_filenames 3).2.1, by omega,
    ((serial_filenames 3).2.2 1 (by omega)).1, ((serial_filenames 3).2.2 1 (by omega)).2⟩

/-! ### Patient path resolver

`get_patient_folder` is `dicom_path.parents[levels_up].name`.  A `pathlib`
path is modelled by its list of non-anchor components, root first (the anchor
`/` of an absolute path, like the implicit `.` of a relative one, has empty
`.name` and is not a component).  `parents[i]` drops the final `i + 1`
components; the `parents` sequence has exactly one entry per component, so
indexing it with `levels_up ≥ len(components)` raises `IndexError`. -/

/-- The `.name` of a path with the given components: its last component, or
`""` for the anchor-only paths `/` and `.`. -/
def pathName (names : List String) : String := names.getLastD ""

/-- The components of `dicom_path.parents[i]`. -/
def parentNames (names : List String) (i : Nat) : List String :=
  names.take (names.length - (i + 1))

/-- Embedding of `get_patient_folder`: `dicom_path.parents[levels_up].name`,
with `IndexError` when `levels_up` is out of range of the parents sequence. -/
def get_patient_folder (names : List String) (levels_up : Nat := 2) :
    Except String String :=
  if levels_up < names.length then
    Except.ok (pathName (parentNames names levels_up))
  else Except.error "IndexError"

theorem take_getLastD {α : Type} (l : List α) (m : Nat) (d : α)
    (h : m < l.length) : (l.take (m + 1)).getLastD d = l.get ⟨m, h⟩ := by
  induction l generalizing m d with
  | nil => simp at h
  | cons a t ih =>
    cases m with
    | zero => simp
    | succ m =>
      have ht : m < t.length := by simpa using h
      show ((a :: t).take (m + 2)).getLastD d = t.get ⟨m, ht⟩
      rw [List.take_succ_cons, List.getLastD_cons]
      exact ih m a ht

/-- C5: the Patient Path Resolver fails with `IndexError` exactly when the
path has fewer ancestor components than the offset (counting the named
ancestors `len(components) - 1`, as integers), never silently returning a
value there; and on every path with at least `levels_up + 1` ancestor
components it returns the name of the directory `levels_up` levels above the
file's directory — a real, nonempty component name. -/
theorem get_patient_folder_spec (names : List String) (lu : Nat)
    (hne : ∀ s ∈ names, s ≠ "") :
    ((names.length : ℤ) - 1 < (lu : ℤ) ↔
        get_patient_folder names lu = .error "IndexError") ∧
      ∀ _ : (lu : ℤ) + 1 ≤ (names.length : ℤ) - 1,
        get_patient_folder names lu =
            .ok (names.get ⟨names.length - lu - 2, by omega⟩) ∧
          names.get ⟨names.length - lu - 2, by omega⟩ ≠ "" := by
  constructor
  · unfold get_patient_folder
    by_cases h' : lu < names.length
    · rw [if_pos h']
      exact iff_of_false (by omega) (by simp)
    · rw [if_neg h']
      exact iff_of_true (by omega) rfl
  · intro h
    have hlt : lu < names.length := by omega
    have hidx : names.length - lu - 2 < names.length := by omega
    unfold get_patient_folder
    rw [if_pos hlt]
    constructor
    · unfold pathName parentNames
      have harith : names.length - (lu + 1) = (names.length - lu - 2) + 1 := by omega
      rw [harith, take_getLastD names (names.length - lu - 2) "" hidx]
    · exact hne _ (List.get_mem _ _ _)

/-- C5 witness: the path `/r/a/b/c/f` (components `r a b c f`) with the
default offset 2 resolves to the ancestor `a`, and paths that are too short
fail with `IndexError`. -/
theorem get_patient_folder_spec_witness :
    (∀ s ∈ (["r", "a", "b", "c", "f"] : List String), s ≠ "") ∧
      ((2 : ℤ) + 1 ≤ (((["r", "a", "b", "c", "f"] : List String).length : ℤ) - 1)) ∧
      get_patient_folder ["r", "a", "b", "c", "f"] 2 = .ok "a" ∧
      get_patient_folder ["a", "f"] 2 = .error "IndexError" := by
  refine ⟨by decide, by decide, ?_, ?_⟩
  · have h := (get_patient_folder_spec ["r", "a", "b", "c", "f"] 2 (by decide)).2
      (by decide)
    rw [h.1]
    rfl
  · exact (get_patient_folder_spec ["a", "f"] 2 (by decide)).1.mp (by decide)

/-! ### Single-file converter

`convert_dicom_to_jpeg` wraps its whole body in `try/except Exception` and
always returns a status string.  External operations (decode, mkdir, pixel
decompression, save) are modelled by their outcome at this call site; each
may raise, modelled by `Except`.  The converter's filesystem side effects
(directory creations and file writes that actually happened) are returned
alongside the message. -/

/-- The decoded DICOM dataset as the converter observes it:
`hasattr(dataset, 'PixelData')`, and `dataset.pixel_array` (which may itself
raise), a nonempty integer array given as head and tail. -/
structure Dataset where
  hasPixelData : Bool
  pixelArray : Except String (ℤ × List ℤ)

/-- Outcomes of the external operations for one input file: `pydicom.dcmread`,
`patient_output_dir.mkdir`, `sorted(patient_output_dir.glob("*.jpg"))`, and
`img.save`. -/
structure FileEnv where
  decode : Except String Dataset
  mkdirResult : Except String Unit
  existingJpgs : List String
  saveResult : Except String Unit

/-- A filesystem side effect performed by the converter. -/
inductive Effect where
  | mkdir (dir : String)
  | write (file : String)

/-- Rendering of an absolute input path from its components. -/
def renderPath (names : List String) : String := "/" ++ String.intercalate "/" names

/-- `f"❌ Error processing {dicom_path}: {e}"`. -/
def errMsg (p e : String) : String := "❌ Error processing " ++ p ++ ": " ++ e

/-- `f"Skipping {dicom_path} - No Pixel Data Found"`. -/
def skipMsg (p : String) : String := "Skipping " ++ p ++ " - No Pixel Data Found"

/-- `f"✔ Saved: {new_filename}"`. -/
def savedMsg (f : String) : String := "✔ Saved: " ++ f

/-- `true` exactly when the operation raised. -/
def isErr {ε α : Type} : Except ε α → Bool
  | .error _ => true
  | .ok _ => false

/-- Embedding of `convert_dicom_to_jpeg`: decode; skip when no pixel data;
resolve the patient folder; create the output directory; pick the next
sequence filename from the existing `*.jpg` listing; rescale; save.  The
first operation that raises short-circuits into the `except` branch, which
returns the error message; the effect list records the filesystem changes
that had already succeeded. -/
def convert_dicom_to_jpeg (dicomNames : List String) (output_base_dir : String)
    (env : FileEnv) : String × List Effect :=
  match env.decode with
  | .error e => (errMsg (renderPath dicomNames) e, [])
  | .ok dataset =>
    if dataset.hasPixelData = false then
      (skipMsg (renderPath dicomNames), [])
    else
      match get_patient_folder dicomNames with
      | .error e => (errMsg (renderPath dicomNames) e, [])
      | .ok patient_folder =>
        let patient_output_dir := output_base_dir ++ "/" ++ patient_folder
        match env.mkdirResult with
        | .error e => (errMsg (renderPath dicomNames) e, [])
        | .ok _ =>
          let new_filename := patient_output_dir ++ "/" ++ nextFilename env.existingJpgs
          match dataset.pixelArray with
          | .error e => (errMsg (renderPath dicomNames) e, [.mkdir patient_output_dir])
          | .ok (x, xs) =>
            let _img := (x :: xs).map (rescaled (pyMin x xs) (pyMax x xs))
            match env.saveResult with
            | .error e => (errMsg (renderPath dicomNames) e, [.mkdir patient_output_dir])
            | .ok _ =>
              (savedMsg new_filename, [.mkdir patient_output_dir, .write new_filename])

/-- Some step of the converter raises: structural decode failure, or — with a
decoded dataset that has pixel data — path resolution, directory creation,
pixel decompression, or saving. -/
def stepFails (dicomNames : List String) (env : FileEnv) : Prop :=
  isErr env.decode = true ∨
    ∃ ds, env.decode = .ok ds ∧ ds.hasPixelData = true ∧
      (isErr (get_patient_folder dicomNames) = true ∨
        isErr env.mkdirResult = true ∨
        isErr ds.pixelArray = true ∨
        isErr env.saveResult = true)

/-- The batch loop over the discovered files, one converter call per file,
logging the file each call processed: `executor.map(lambda d:
convert_dicom_to_jpeg(d, output_path), dicom_files)`. -/
def batchRun (base : String) (envOf : List String → FileEnv) :
    List (List String) → List (List String × String)
  | [] => []
  | p :: rest =>
      (p, (convert_dicom_to_jpeg p base (envOf p)).1) :: batchRun base envOf rest

/-- The summary loop: `for res in results: if res: print(res)` — only truthy
(nonempty) strings are printed. -/
def printedLines (results : List String) : List String :=
  results.filter fun s => decide (s ≠ "")

theorem errMsg_contains (p e : String) : ∃ pre post, errMsg p e = pre ++ p ++ post :=
  ⟨"❌ Error processing ", ": " ++ e, String.append_assoc _ _ _⟩

theorem skipMsg_contains (p : String) : ∃ pre post, skipMsg p = pre ++ p ++ post :=
  ⟨"Skipping ", " - No Pixel Data Found", rfl⟩

theorem convert_fail_err (p : List String) (base : String) (env : FileEnv)
    (hf : stepFails p env) :
    ∃ e, (convert_dicom_to_jpeg p base env).1 = errMsg (renderPath p) e := by
  rcases hf with hdec | ⟨ds, hds, hpx, hrest⟩
  · unfold convert_dicom_to_jpeg
    split
    · exact ⟨_, rfl⟩
    · next ds heq => rw [heq] at hdec; simp [isErr] at hdec
  · unfold convert_dicom_to_jpeg
    split
    · exact ⟨_, rfl⟩
    · next ds' heq =>
      have hds' : ds' = ds := by
        rw [hds] at heq
        injection heq with h
        exact h.symm
      subst hds'
      rw [if_neg (by simp [hpx])]
      split
      · exact ⟨_, rfl⟩
      · next folder h1 =>
        split
        · exact ⟨_, rfl⟩
        · next u h2 =>
          split
          · exact ⟨_, rfl⟩
          · next pair h3 =>
            split
            · exact ⟨_, rfl⟩
            · next u' h4 => simp [isErr, h1, h2, h3, h4] at hrest

theorem batchRun_fst (base : String) (envOf : List String → FileEnv)
    (files : List (List String)) : (batchRun base envOf files).map Prod.fst = files := by
  induction files with
  | nil => rfl
  | cons p rest ih => simp [batchRun, ih]

/-- C6: every per-file failure is caught at the converter boundary and turned
into a descriptive error string containing the source path; and the batch
converts every file exactly once, in order, so no per-file failure aborts the
batch and no failed file is ever reattempted. -/
theorem convert_error_isolation :
    (∀ (p : List String) (base : String) (env : FileEnv), stepFails p env →
        ∃ e, (convert_dicom_to_jpeg p base env).1 = errMsg (renderPath p) e ∧
          ∃ pre post, errMsg (renderPath p) e = pre ++ renderPath p ++ post) ∧
      ∀ (base : String) (envOf : List String → FileEnv) (files : List (List String)),
        (batchRun base envOf files).length = files.length ∧
          (batchRun base envOf files).map Prod.fst = files := by
  constructor
  · intro p base env hf
    rcases convert_fail_err p base env hf with ⟨e, he⟩
    exact ⟨e, he, errMsg_contains _ e⟩
  · intro base envOf files
    refine ⟨?_, batchRun_fst base envOf files⟩
    have := congrArg List.length (batchRun_fst base envOf files)
    simpa using this

/-- C6 witness: a file whose decode raises, in a two-file batch. -/
theorem convert_error_isolation_witness :
    stepFails ["r", "a", "b", "c", "f"]
        ⟨.error "Invalid DICOM", .ok (), [], .ok ()⟩ ∧
      (∃ e, (convert_dicom_to_jpeg ["r", "a", "b", "c", "f"] "/out"
            ⟨.error "Invalid DICOM", .ok (), [], .ok ()⟩).1 =
          errMsg (renderPath ["r", "a", "b", "c", "f"]) e ∧
          ∃ pre post, errMsg (renderPath ["r", "a", "b", "c", "f"]) e =
            pre ++ renderPath ["r", "a", "b", "c", "f"] ++ post) ∧
      (batchRun "/out" (fun _ => ⟨.error "Invalid DICOM", .ok (), [], .ok ()⟩)
          [["r", "a", "b", "c", "f"], ["r", "a", "b", "c", "g"]]).length = 2 := by
  have hf : stepFails ["r", "a", "b", "c", "f"]
      ⟨.error "Invalid DICOM", .ok (), [], .ok ()⟩ := Or.inl rfl
  refine ⟨hf, convert_error_isolation.1 _ "/out" _ hf, ?_⟩
  have h := (convert_error_isolation.2 "/out"
    (fun _ => ⟨.error "Invalid DICOM", .ok (), [], .ok ()⟩)
    [["r", "a", "b", "c", "f"], ["r", "a", "b", "c", "g"]]).1
  simpa using h

/-- C7: when the decoded dataset carries no pixel data, the converter returns
the skip message — which contains the source path — and performs no
filesystem side effect: no directory creation, no write. -/
theorem convert_skip_no_effects (p : List String) (base : String) (env : FileEnv)
    (ds : Dataset) (hds : env.decode = .ok ds) (hpx : ds.hasPixelData = false) :
    convert_dicom_to_jpeg p base env = (skipMsg (renderPath p), []) ∧
      ∃ pre post, skipMsg (renderPath p) = pre ++ renderPath p ++ post := by
  refine ⟨?_, skipMsg_contains _⟩
  unfold convert_dicom_to_jpeg
  split
  · next heq => rw [hds] at heq; cases heq
  · next ds' heq =>
    have hds' : ds' = ds := by
      rw [hds] at heq
      injection heq with h
      exact h.symm
    subst hds'
    rw [if_pos hpx]

/-- C7 witness: a concrete dataset without pixel data. -/
theorem convert_skip_no_effects_witness :
    (FileEnv.mk (.ok ⟨false, .error "no data"⟩) (.ok ()) [] (.ok ())).decode =
        .ok ⟨false, .error "no data"⟩ ∧
      (Dataset.mk false (.error "no data")).hasPixelData = false ∧
      convert_dicom_to_jpeg ["r", "a", "b", "c", "f"] "/out"
          ⟨.ok ⟨false, .error "no data"⟩, .ok (), [], .ok ()⟩ =
        (skipMsg (renderPath ["r", "a", "b", "c", "f"]), []) ∧
      ∃ pre post, skipMsg (renderPath ["r", "a", "b", "c", "f"]) =
        pre ++ renderPath ["r", "a", "b", "c", "f"] ++ post := by
  have h := convert_skip_no_effects ["r", "a", "b", "c", "f"] "/out"
    ⟨.ok ⟨false, .error "no data"⟩, .ok (), [], .ok ()⟩
    ⟨false, .error "no data"⟩ rfl rfl
  exact ⟨rfl, rfl, h.1, h.2⟩

theorem errMsg_ne_empty (p e : String) : errMsg p e ≠ "" := by
  intro h
  have h2 := congrArg String.data h
  simp [errMsg] at h2

theorem skipMsg_ne_empty (p : String) : skipMsg p ≠ "" := by
  intro h
  have h2 := congrArg String.data h
  simp [skipMsg] at h2

theorem savedMsg_ne_empty (f : String) : savedMsg f ≠ "" := by
  intro h
  have h2 := congrArg String.data h
  simp [savedMsg] at h2

theorem convert_shape (p : List String) (base : String) (env : FileEnv) :
    (∃ e, (convert_dicom_to_jpeg p base env).1 = errMsg (renderPath p) e) ∨
      (convert_dicom_to_jpeg p base env).1 = skipMsg (renderPath p) ∨
      ∃ f, (convert_dicom_to_jpeg p base env).1 = savedMsg f := by
  unfold convert_dicom_to_jpeg
  split
  · exact Or.inl ⟨_, rfl⟩
  · split
    · exact Or.inr (Or.inl rfl)
    · split
      · exact Or.inl ⟨_, rfl⟩
      · split
        · exact Or.inl ⟨_, rfl⟩
        · split
          · exact Or.inl ⟨_, rfl⟩
          · split
            · exact Or.inl ⟨_, rfl⟩
            · exact Or.inr (Or.inr ⟨_, rfl⟩)

theorem convert_ne_empty (p : List String) (base : String) (env : FileEnv) :
    (convert_dicom_to_jpeg p base env).1 ≠ "" := by
  rcases convert_shape p base env with ⟨e, h⟩ | h | ⟨f, h⟩ <;> rw [h]
  exacts [errMsg_ne_empty _ _, skipMsg_ne_empty _, savedMsg_ne_empty _]

theorem batchRun_snd {base : String} {envOf : List String → FileEnv}
    {files : List (List String)} {pr : List String × String}
    (h : pr ∈ batchRun base envOf files) :
    pr.2 = (convert_dicom_to_jpeg pr.1 base (envOf pr.1)).1 := by
  induction files with
  | nil => simp [batchRun] at h
  | cons p rest ih =>
    rw [batchRun] at h
    rcases List.mem_cons.mp h with rfl | h'
    · rfl
    · exact ih h'

/-- C9: the converter returns a nonempty string in every branch (success,
skip, error), so the summary loop's truthiness filter discards nothing:
exactly one line is printed per discovered file. -/
theorem results_never_suppressed :
    (∀ (p : List String) (base : String) (env : FileEnv),
        (convert_dicom_to_jpeg p base env).1 ≠ "") ∧
      ∀ (base : String) (envOf : List String → FileEnv) (files : List (List String)),
        printedLines ((batchRun base envOf files).map Prod.snd) =
            (batchRun base envOf files).map Prod.snd ∧
          (printedLines ((batchRun base envOf files).map Prod.snd)).length =
            files.length := by
  refine ⟨convert_ne_empty, ?_⟩
  intro base envOf files
  have hall : ∀ s ∈ (batchRun base envOf files).map Prod.snd, decide (s ≠ "") = true := by
    intro s hs
    rcases List.mem_map.mp hs with ⟨pr, hpr, rfl⟩
    rw [batchRun_snd hpr]
    simpa using convert_ne_empty pr.1 base (envOf pr.1)
  have heq : printedLines ((batchRun base envOf files).map Prod.snd) =
      (batchRun base envOf files).map Prod.snd :=
    List.filter_eq_self.mpr hall
  refine ⟨heq, ?_⟩
  rw [heq, List.length_map]
  have h2 := congrArg List.length (batchRun_fst base envOf files)
  simpa using h2

/-- C9 witness: a one-file batch whose conversion fails still prints one
line. -/
theorem results_never_suppressed_witness :
    (convert_dicom_to_jpeg ["r", "a", "b", "c", "f"] "/out"
        ⟨.error "boom", .ok (), [], .ok ()⟩).1 ≠ "" ∧
      printedLines ((batchRun "/out" (fun _ => ⟨.error "boom", .ok (), [], .ok ()⟩)
            [["r", "a", "b", "c", "f"]]).map Prod.snd) =
          (batchRun "/out" (fun _ => ⟨.error "boom", .ok (), [], .ok ()⟩)
            [["r", "a", "b", "c", "f"]]).map Prod.snd ∧
      (printedLines ((batchRun "/out" (fun _ => ⟨.error "boom", .ok (), [], .ok ()⟩)
            [["r", "a", "b", "c", "f"]]).map Prod.snd)).length = 1 :=
  ⟨results_never_suppressed.1 ["r", "a", "b", "c", "f"] "/out"
      ⟨.error "boom", .ok (), [], .ok ()⟩,
    (results_never_suppressed.2 "/out" (fun _ => ⟨.error "boom", .ok (), [], .ok ()⟩)
      [["r", "a", "b", "c", "f"]]).1,
    (results_never_suppressed.2 "/out" (fun _ => ⟨.error "boom", .ok (), [], .ok ()⟩)
      [["r", "a", "b", "c", "f"]]).2⟩

/-! ### Batch orchestrator result ordering

`executor.map` runs the tasks across the worker pool but yields results in
the order of the input iterable, not in completion order.  A run is modelled
by a completion schedule: the list of task indices in the order the workers
finish them.  `completeInOrder` is the bag of completion events of a
schedule; `collectInOrder` is the collection `executor.map` hands back, one
result per submitted index, in submission order. -/

/-- The completion events of a schedule: the task index and its result, in
the order the workers finished them. -/
def completeInOrder {α β : Type} (f : α → β) (files : List α) (sched : List Nat) :
    List (Nat × β) :=
  sched.filterMap fun i => (files[i]?).map fun a => (i, f a)

/-- Collection in submission order: for each submitted index in turn, the
result of the event that completed it. -/
def collectInOrder {β : Type} (n : Nat) (events : List (Nat × β)) : List β :=
  (List.range n).filterMap fun i => (events.find? fun e => e.1 == i).map Prod.snd

theorem mem_completeInOrder {α β : Type} {f : α → β} {files : List α}
    {sched : List Nat} {e : Nat × β} :
    e ∈ completeInOrder f files sched ↔
      ∃ i ∈ sched, ∃ a, files[i]? = some a ∧ e = (i, f a) := by
  unfold completeInOrder
  rw [List.mem_filterMap]
  constructor
  · rintro ⟨i, hi, hsome⟩
    rcases Option.map_eq_some'.mp hsome with ⟨a, ha, rfl⟩
    exact ⟨i, hi, a, ha, rfl⟩
  · rintro ⟨i, hi, a, ha, rfl⟩
    exact ⟨i, hi, by rw [ha]; rfl⟩

theorem find?_completeInOrder {α β : Type} {f : α → β} {files : List α}
    {sched : List Nat} (hp : sched.Perm (List.range files.length))
    {i : Nat} {a : α} (ha : files[i]? = some a) :
    (completeInOrder f files sched).find? (fun e => e.1 == i) = some (i, f a) := by
  have hi : i < files.length := by
    by_contra hge
    rw [List.getElem?_eq_none (by omega)] at ha
    cases ha
  have hmem : (i, f a) ∈ completeInOrder f files sched :=
    mem_completeInOrder.mpr ⟨i, hp.mem_iff.mpr (List.mem_range.mpr hi), a, ha, rfl⟩
  have hsome : ((completeInOrder f files sched).find? fun e => e.1 == i).isSome :=
    List.find?_isSome.mpr ⟨(i, f a), hmem, by simp⟩
  rcases Option.isSome_iff_exists.mp hsome with ⟨e0, he0⟩
  have he0i : e0.1 = i := by
    have := List.find?_some he0
    simpa using this
  have he0mem := List.mem_of_find?_eq_some he0
  rcases mem_completeInOrder.mp he0mem with ⟨j, _, b, hb, rfl⟩
  have hj : j = i := he0i
  subst hj
  rw [ha] at hb
  cases hb
  exact he0

theorem range_filterMap_getElem {α β : Type} (l : List α) (f : α → β) :
    (List.range l.length).filterMap (fun i => (l[i]?).map f) = l.map f := by
  induction l with
  | nil => rfl
  | cons a t ih =>
    rw [List.length_cons, List.range_succ_eq_map, List.filterMap_cons]
    simp only [List.getElem?_cons_zero, Option.map_some']
    rw [List.filterMap_map]
    have hcomp : ((fun i => ((a :: t)[i]?).map f) ∘ Nat.succ) =
        fun i => (t[i]?).map f := by
      funext i
      simp
    rw [hcomp, ih]
    rfl

theorem collect_eq {α β : Type} (f : α → β) (files : List α) (sched : List Nat)
    (hp : sched.Perm (List.range files.length)) :
    collectInOrder files.length (completeInOrder f files sched) = files.map f := by
  unfold collectInOrder
  have hcong : ∀ i ∈ List.range files.length,
      ((completeInOrder f files sched).find? fun e => e.1 == i).map Prod.snd =
        (files[i]?).map f := by
    intro i hi
    have hil : i < files.length := List.mem_range.mp hi
    have ha : files[i]? = some files[i] := List.getElem?_eq_getElem hil
    rw [find?_completeInOrder hp ha, ha]
    rfl
  rw [List.filterMap_congr hcong, range_filterMap_getElem]

/-- C8: the Batch Orchestrator collects conversion results in submission
order: whatever order the workers complete the tasks (any permutation of the
task indices), the collected result list equals the converter mapped over the
file list in its original order. -/
theorem orchestrator_order (base : String) (envOf : List String → FileEnv)
    (files : List (List String)) (sched : List Nat)
    (hp : sched.Perm (List.range files.length)) :
    collectInOrder files.length
        (completeInOrder (fun p => (convert_dicom_to_jpeg p base (envOf p)).1)
          files sched) =
      files.map fun p => (convert_dicom_to_jpeg p base (envOf p)).1 :=
  collect_eq _ files sched hp

/-- C8 witness: two files completed in reversed order. -/
theorem orchestrator_order_witness :
    ([1, 0] : List Nat).Perm
        (List.range ([["r", "a", "b", "c", "f"], ["r", "a", "b", "c", "g"]].length)) ∧
      collectInOrder [["r", "a", "b", "c", "f"], ["r", "a", "b", "c", "g"]].length
          (completeInOrder
            (fun p => (convert_dicom_to_jpeg p "/out"
              (FileEnv.mk (.error "boom") (.ok ()) [] (.ok ()))).1)
            [["r", "a", "b", "c", "f"], ["r", "a", "b", "c", "g"]] [1, 0]) =
        [["r", "a", "b", "c", "f"], ["r", "a", "b", "c", "g"]].map
          fun p => (convert_dicom_to_jpeg p "/out"
            (FileEnv.mk (.error "boom") (.ok ()) [] (.ok ()))).1 :=
  ⟨by decide,
    orchestrator_order "/out" (fun _ => FileEnv.mk (.error "boom") (.ok ()) [] (.ok ()))
      [["r", "a", "b", "c", "f"], ["r", "a", "b", "c", "g"]] [1, 0] (by decide)⟩

end ConvertDicom
